import Mathlib

set_option maxRecDepth 8000

/-!
Shallow embedding of src/cppp.py, a pre-pre-processor that expands
#include lines of a C/C++ header against a search path, emits line
markers, and collects the list of files pulled in.

File contents are modelled as the list of lines that Python's file
iteration would yield (each line keeping its trailing newline).  The
file system is an association list from path to lines; os.path.isfile
is membership in it and open is lookup.  Writes to the output file are
collected as a list of written chunks, one per w.write(...) call.
Python recursion is modelled with an explicit fuel argument, and the
current working directory (consulted by os.path.abspath) is an explicit
parameter.
-/

/-- ASCII whitespace matched by the Python regex class \s and stripped by
str.strip: space, tab, newline, vertical tab, form feed, carriage return.
(Non-ASCII Unicode whitespace, which Python also accepts, is outside the
modelled character range.) -/
def isPySpace (c : Char) : Bool :=
  (c == ' ') || (c == '\t') || (c == '\n') || (c == '\x0b') || (c == '\x0c') || (c == '\r')

/-- All characters of the list are whitespace in the sense of isPySpace. -/
def SpaceAll (ws : List Char) : Prop := ∀ c ∈ ws, isPySpace c = true

instance (ws : List Char) : Decidable (SpaceAll ws) :=
  List.decidableBAll (fun c => isPySpace c = true) ws

/-- Python str.strip(): remove leading and trailing whitespace. -/
def pyStrip (cs : List Char) : List Char :=
  ((cs.dropWhile isPySpace).reverse.dropWhile isPySpace).reverse

/-- The delimited-name part of the regex of cppp.py line 43: for the angle
form this is the sub-pattern matching one-or-more characters other than the
closing delimiter, followed by the closing delimiter (the quoted form is the
same with the quote as delimiter).  Returns the raw delimited text. -/
def parseDelim (close : Char) (cs : List Char) : Option (List Char) :=
  if cs.takeWhile (fun c => !(c == close)) = [] then none
  else if cs.dropWhile (fun c => !(c == close)) = [] then none
  else some (cs.takeWhile (fun c => !(c == close)))

/-- Leading part of the regex of cppp.py line 43: optional whitespace then
the hash character.  Returns the remainder after the hash. -/
def afterHash (cs : List Char) : Option (List Char) :=
  match cs.dropWhile isPySpace with
  | '#' :: rest => some rest
  | _ => none

/-- Middle part of the regex of cppp.py line 43: optional whitespace then
the literal word include.  Returns the remainder after the literal. -/
def afterIncludeWord (cs : List Char) : Option (List Char) :=
  match cs.dropWhile isPySpace with
  | 'i' :: 'n' :: 'c' :: 'l' :: 'u' :: 'd' :: 'e' :: rest => some rest
  | _ => none

/-- Trailing part of the regex of cppp.py line 43 plus the group
extraction and strip of match_include: optional whitespace, then an
angle-delimited or quote-delimited non-empty name, stripped of
surrounding whitespace.  The line may continue arbitrarily after the
closing delimiter (re.match only needs a prefix match). -/
def delimPart (cs2 : List Char) : Option (List Char) :=
  match cs2.dropWhile isPySpace with
  | '<' :: cs3 => (parseDelim '>' cs3).map pyStrip
  | '"' :: cs3 => (parseDelim '"' cs3).map pyStrip
  | _ => none

/-- INC_RE.match plus the group extraction and strip of match_include
(cppp.py lines 43-52): the three regex parts chained on the character
list of the line. -/
def matchIncludeChars (cs : List Char) : Option (List Char) :=
  (afterHash cs).bind (fun cs1 => (afterIncludeWord cs1).bind delimPart)

/-- match_include of cppp.py lines 46-52: None if no include directive is
found at the start of the line, otherwise the stripped file name. -/
def match_include (line : String) : Option String :=
  (matchIncludeChars line.toList).map String.mk

/-- A file system: association list from path to the list of lines of the
file at that path. -/
abbrev FS := List (String × List String)

/-- Look a path up in the file system (Python open on an existing file). -/
def lookupFile (fs : FS) (p : String) : Option (List String) :=
  match fs with
  | [] => none
  | (q, ls) :: rest => if q = p then some ls else lookupFile rest p

/-- os.path.isfile against the modelled file system. -/
def isfile (fs : FS) (p : String) : Bool := (lookupFile fs p).isSome

/-- Whether a character list starts with the path separator. -/
def startsWithSlash (s : List Char) : Bool :=
  match s with
  | '/' :: _ => true
  | _ => false

/-- Whether a character list ends with the path separator. -/
def endsWithSlash (s : List Char) : Bool :=
  match s.getLast? with
  | some c => c == '/'
  | none => false

/-- posixpath.join of two components, as used by os.path.join in
find_path (cppp.py line 57): if the second part is absolute it wins;
otherwise concatenate, inserting a slash unless the first part is empty
or already ends with one. -/
def joinPath (a b : String) : String :=
  if startsWithSlash b.toList then b
  else if a.toList = [] ∨ endsWithSlash a.toList then a ++ b
  else a ++ "/" ++ b

/-- posixpath.dirname, as used by os.path.dirname in expand (cppp.py
line 83): everything up to and including the last slash, with trailing
slashes stripped unless the result consists only of slashes. -/
def dirname (p : String) : String :=
  let head := (p.toList.reverse.dropWhile (fun c => !(c == '/'))).reverse
  if head ≠ [] ∧ head.any (fun c => !(c == '/')) = true then
    String.mk ((head.reverse.dropWhile (fun c => c == '/')).reverse)
  else String.mk head

/-- Python str.split on a single separator character: splits into
(possibly empty) components, one more component than separators. -/
def splitChar (sep : Char) : List Char → List (List Char)
  | [] => [[]]
  | c :: cs =>
    let r := splitChar sep cs
    if c = sep then [] :: r
    else
      match r with
      | h :: t => (c :: h) :: t
      | [] => [[c]]

/-- Python sep.join of a list of components. -/
def intercalateChar (sep : Char) : List (List Char) → List Char
  | [] => []
  | [x] => x
  | x :: y :: ys => x ++ sep :: intercalateChar sep (y :: ys)

/-- posixpath.normpath: collapse repeated separators, drop single-dot
components, resolve dot-dot components, preserving the special meaning of
exactly two leading slashes. -/
def normpath (p : String) : String :=
  match p.toList with
  | [] => "."
  | cs =>
    let initialSlashes : Nat :=
      match cs with
      | '/' :: '/' :: '/' :: _ => 1
      | '/' :: '/' :: _ => 2
      | '/' :: _ => 1
      | _ => 0
    let comps := splitChar '/' cs
    let newComps := comps.foldl (fun acc comp =>
      if comp = [] ∨ comp = ['.'] then acc
      else if comp ≠ ['.', '.'] ∨ (initialSlashes = 0 ∧ acc = []) ∨
          (acc.getLast? = some ['.', '.']) then acc ++ [comp]
      else if acc ≠ [] then acc.dropLast
      else acc) []
    let res := List.replicate initialSlashes '/' ++ intercalateChar '/' newComps
    match res with
    | [] => "."
    | r => String.mk r

/-- posixpath.abspath with the current working directory passed
explicitly (Python reads it with os.getcwd()). -/
def abspath (cwd p : String) : String :=
  if startsWithSlash p.toList then normpath p else normpath (joinPath cwd p)

/-- Length of the longest common prefix of two component lists
(os.path.commonprefix applied to exactly two lists). -/
def commonPrefixLen : List (List Char) → List (List Char) → Nat
  | a :: as, b :: bs => if a = b then commonPrefixLen as bs + 1 else 0
  | _, _ => 0

/-- posixpath.relpath with the current working directory passed
explicitly, as used by os.path.relpath in expand (cppp.py line 85).
Python raises ValueError on an empty path; that error case is modelled as
the empty string and is unreachable in the modelled uses. -/
def relpath (cwd path start : String) : String :=
  if path = "" then ""
  else
    let startList := (splitChar '/' (abspath cwd start).toList).filter (fun x => x ≠ [])
    let pathList := (splitChar '/' (abspath cwd path).toList).filter (fun x => x ≠ [])
    let i := commonPrefixLen startList pathList
    let relList := List.replicate (startList.length - i) ['.', '.'] ++ pathList.drop i
    match relList with
    | [] => "."
    | rs => String.mk (intercalateChar '/' rs)

/-- Python str.format restricted to the replacement fields actually used
by cppp.py: the named fields line and file, and doubled braces as escaped
literal braces.  Any other text is emitted unchanged.  (Templates on
which Python format would raise, such as an unclosed brace, are not
distinguished and pass through literally; the modelled uses only involve
the two named fields.) -/
def pyFormat (lineNo : Nat) (file : List Char) : List Char → List Char
  | [] => []
  | '\x7b' :: '\x7b' :: rest => '\x7b' :: pyFormat lineNo file rest
  | '\x7d' :: '\x7d' :: rest => '\x7d' :: pyFormat lineNo file rest
  | '\x7b' :: 'l' :: 'i' :: 'n' :: 'e' :: '\x7d' :: rest =>
    Nat.toDigits 10 lineNo ++ pyFormat lineNo file rest
  | '\x7b' :: 'f' :: 'i' :: 'l' :: 'e' :: '\x7d' :: rest =>
    file ++ pyFormat lineNo file rest
  | c :: rest => c :: pyFormat lineNo file rest

/-- One marker write of expand (cppp.py lines 87 and 99): the marker
format string with a newline appended, formatted with the line number and
file name. -/
def formatMarker (marker : String) (lineNo : Nat) (file : String) : String :=
  String.mk (pyFormat lineNo file.toList (marker.toList ++ ['\n']))

/-- find_path of cppp.py lines 55-62: first directory of the search list,
in order, that contains a file of the given name; None otherwise. -/
def find_path (name : String) (includes : List String) (fs : FS) : Option String :=
  match includes with
  | [] => none
  | d :: rest =>
    if isfile fs (joinPath d name) = true then some (joinPath d name)
    else find_path name rest fs

/-- find_include of cppp.py lines 65-71.  Python returns False when the
matched name is missing or empty and None when find_path fails; both
falsy results are modelled as none, matching their only use (the truth
test on line 94). -/
def find_include (line : String) (includes : List String) (fs : FS) : Option String :=
  match match_include line with
  | none => none
  | some name => if name = "" then none else find_path name includes fs

/-- The body of the per-line loop of expand (cppp.py lines 90-102), one
line at a time.  The accumulator carries the chunks written so far, the
dependency list so far, and the line counter; recur is the recursive call
to expand with the read file, the extended inclusion chain, and the other
arguments fixed by the enclosing call.  none propagates failure (out of
fuel, or a file that vanished between the isfile check and open, which is
fatal in Python). -/
def expandStep
    (recur : String → List String → List String → Option (List String × List String))
    (fs : FS) (fullIncludes past : List String) (marker name : String)
    (acc : Option (List String × List String × Nat)) (line : String) :
    Option (List String × List String × Nat) :=
  match acc with
  | none => none
  | some (out, depends, lineNo) =>
    match find_include line fullIncludes fs with
    | some path =>
      if path ∈ past then
        some (out ++ [formatMarker marker (lineNo + 1) name], depends, lineNo + 1)
      else
        match lookupFile fs path with
        | some incLines =>
          match recur path incLines (past ++ [path]) with
          | some (incOut, incDeps) =>
            some (out ++ incOut ++ [formatMarker marker (lineNo + 1) name],
                  depends ++ path :: incDeps, lineNo + 1)
          | none => none
        | none => none
    | none => some (out ++ [line], depends, lineNo + 1)

/-- expand of cppp.py lines 81-104.  The open file r is passed as its
name rname and its lines rlines; writes to w are collected as the first
component of the result and the returned dependency list is the second.
The fuel argument bounds the recursion depth (Python's call stack); none
means the fuel ran out before the expansion finished. -/
def expand : Nat → FS → String → List String → List String → List String →
    String → String → String → Option (List String × List String)
  | 0, _, _, _, _, _, _, _, _ => none
  | fuel + 1, fs, rname, rlines, includes, past, marker, relPath, cwd =>
    (rlines.foldl
        (expandStep (fun p ls pst => expand fuel fs p ls includes pst marker relPath cwd)
          fs (includes ++ [dirname rname]) past marker (relpath cwd rname relPath))
        (some ([formatMarker marker 1 (relpath cwd rname relPath)], [], 0))).map
      (fun t => (t.1, t.2.1))

/-- Modelled from the spec: one line of the dependency accumulation of
spec section 4.2 steps 5 and 7 (own direct includes plus all
descendants', in first-encountered order, duplicates permitted), with no
output production.  Companion of expandStep for the refinement claim
about the returned dependency list. -/
def specStep
    (recur : String → List String → List String → Option (List String))
    (fs : FS) (fullIncludes past : List String)
    (acc : Option (List String)) (line : String) : Option (List String) :=
  match acc with
  | none => none
  | some depends =>
    match find_include line fullIncludes fs with
    | some path =>
      if path ∈ past then some depends
      else
        match lookupFile fs path with
        | some incLines =>
          match recur path incLines (past ++ [path]) with
          | some child => some (depends ++ path :: child)
          | none => none
        | none => none
    | none => some depends

/-- Modelled from the spec: the pure dependency traversal of spec section
4.2 (resolution against the caller directories plus the directory of the
current file, cycle breaking by chain membership, depth-first pre-order
accumulation), independent of all output and marker concerns. -/
def specDeps : Nat → FS → String → List String → List String → List String →
    Option (List String)
  | 0, _, _, _, _, _ => none
  | fuel + 1, fs, rname, rlines, includes, past =>
    rlines.foldl
      (specStep (fun p ls pst => specDeps fuel fs p ls includes pst)
        fs (includes ++ [dirname rname]) past)
      (some [])

/-- Number of files of the file system whose path is not yet in the
inclusion chain: the quantity that shrinks at every recursive call of
expand. -/
def newFiles (fs : FS) (past : List String) : Nat :=
  ((fs.map Prod.fst).filter (fun p => decide (¬ p ∈ past))).length

/-- The include-directive shape of an input line, stated declaratively:
optional whitespace, hash, optional whitespace, the literal include,
optional whitespace, the opening delimiter, a non-empty body free of the
closing delimiter, the closing delimiter, then arbitrary trailing text. -/
def IncludeShape (op close : Char) (cs body : List Char) : Prop :=
  ∃ ws1 ws2 ws3 rest,
    SpaceAll ws1 ∧ SpaceAll ws2 ∧ SpaceAll ws3 ∧
    body ≠ [] ∧ (∀ c ∈ body, c ≠ close) ∧
    cs = ws1 ++ '#' :: (ws2 ++ ('i' :: 'n' :: 'c' :: 'l' :: 'u' :: 'd' :: 'e' ::
      (ws3 ++ op :: (body ++ close :: rest))))

/-- The include-directive shape exactly as the claim words it, with
whitespace required between the literal include and the name. -/
def IncludeShapeRequiredWS (op close : Char) (cs body : List Char) : Prop :=
  ∃ ws1 ws2 ws3 rest,
    SpaceAll ws1 ∧ SpaceAll ws2 ∧ SpaceAll ws3 ∧ ws3 ≠ [] ∧
    body ≠ [] ∧ (∀ c ∈ body, c ≠ close) ∧
    cs = ws1 ++ '#' :: (ws2 ++ ('i' :: 'n' :: 'c' :: 'l' :: 'u' :: 'd' :: 'e' ::
      (ws3 ++ op :: (body ++ close :: rest))))

/-! ### Generic list helpers -/

theorem mem_takeWhile_sat {α : Type} (P : α → Bool) :
    ∀ (l : List α) (x : α), x ∈ List.takeWhile P l → P x = true := by
  intro l
  induction l with
  | nil => simp [List.takeWhile]
  | cons c t ih =>
    intro x hx
    cases hpc : P c with
    | true =>
      rw [List.takeWhile_cons, hpc] at hx
      simp only [if_true] at hx
      rcases List.mem_cons.mp hx with rfl | hx
      · exact hpc
      · exact ih x hx
    | false =>
      rw [List.takeWhile_cons, hpc] at hx
      simp at hx

theorem dropWhile_append_all {α : Type} (P : α → Bool) (ws rest : List α)
    (h : ∀ c ∈ ws, P c = true) :
    List.dropWhile P (ws ++ rest) = List.dropWhile P rest := by
  induction ws with
  | nil => rfl
  | cons c t ih =>
    have hc : P c = true := h c (by simp)
    simp only [List.cons_append, List.dropWhile_cons, hc, if_true]
    exact ih (fun x hx => h x (by simp [hx]))

theorem dropWhile_cons_false {α : Type} (P : α → Bool) (c : α) (rest : List α)
    (h : P c = false) : List.dropWhile P (c :: rest) = c :: rest := by
  simp [List.dropWhile_cons, h]

theorem takeWhile_all_append {α : Type} (P : α → Bool) (body : List α) (x : α) (rest : List α)
    (hb : ∀ c ∈ body, P c = true) (hx : P x = false) :
    List.takeWhile P (body ++ x :: rest) = body := by
  induction body with
  | nil => simp [List.takeWhile_cons, hx]
  | cons c t ih =>
    have hc : P c = true := hb c (by simp)
    simp only [List.cons_append, List.takeWhile_cons, hc, if_true]
    rw [ih (fun y hy => hb y (by simp [hy]))]

theorem dropWhile_all_append {α : Type} (P : α → Bool) (body : List α) (x : α) (rest : List α)
    (hb : ∀ c ∈ body, P c = true) (hx : P x = false) :
    List.dropWhile P (body ++ x :: rest) = x :: rest := by
  rw [dropWhile_append_all P body _ hb, dropWhile_cons_false P x rest hx]

theorem dropWhile_head_false {α : Type} (P : α → Bool) :
    ∀ (l : List α) (x : α) (xs : List α), List.dropWhile P l = x :: xs → P x = false := by
  intro l
  induction l with
  | nil => intro x xs h; cases h
  | cons c t ih =>
    intro x xs h
    cases hpc : P c with
    | true =>
      rw [List.dropWhile_cons, hpc] at h
      simp only [if_true] at h
      exact ih x xs h
    | false =>
      rw [List.dropWhile_cons, hpc] at h
      simp only [Bool.false_eq_true, if_false, List.cons.injEq] at h
      rcases h with ⟨rfl, rfl⟩
      exact hpc

/-! ### Matcher: the parser succeeds exactly on the directive shape -/

theorem afterHash_shape (ws T : List Char) (h : SpaceAll ws) :
    afterHash (ws ++ '#' :: T) = some T := by
  unfold afterHash
  rw [dropWhile_append_all isPySpace ws _ h, dropWhile_cons_false isPySpace '#' T (by decide)]
  rfl

theorem afterIncludeWord_shape (ws T : List Char) (h : SpaceAll ws) :
    afterIncludeWord (ws ++ 'i' :: 'n' :: 'c' :: 'l' :: 'u' :: 'd' :: 'e' :: T) = some T := by
  unfold afterIncludeWord
  rw [dropWhile_append_all isPySpace ws _ h, dropWhile_cons_false isPySpace 'i' _ (by decide)]
  rfl

theorem parseDelim_of_shape (close : Char) (body rest : List Char)
    (hb : body ≠ []) (hf : ∀ c ∈ body, c ≠ close) :
    parseDelim close (body ++ close :: rest) = some body := by
  have hfb : ∀ c ∈ body, (!(c == close)) = true := fun c hc => by simp [hf c hc]
  have hcl : (!(close == close)) = false := by simp
  unfold parseDelim
  rw [takeWhile_all_append _ body close rest hfb hcl,
    dropWhile_all_append _ body close rest hfb hcl]
  simp [hb]

theorem delimPart_angle (ws3 body rest : List Char) (h3 : SpaceAll ws3)
    (hb : body ≠ []) (hf : ∀ c ∈ body, c ≠ '>') :
    delimPart (ws3 ++ '<' :: (body ++ '>' :: rest)) = some (pyStrip body) := by
  unfold delimPart
  rw [dropWhile_append_all isPySpace ws3 _ h3, dropWhile_cons_false isPySpace '<' _ (by decide)]
  show (parseDelim '>' (body ++ '>' :: rest)).map pyStrip = some (pyStrip body)
  rw [parseDelim_of_shape '>' body rest hb hf]
  rfl

theorem delimPart_quote (ws3 body rest : List Char) (h3 : SpaceAll ws3)
    (hb : body ≠ []) (hf : ∀ c ∈ body, c ≠ '"') :
    delimPart (ws3 ++ '"' :: (body ++ '"' :: rest)) = some (pyStrip body) := by
  unfold delimPart
  rw [dropWhile_append_all isPySpace ws3 _ h3, dropWhile_cons_false isPySpace '"' _ (by decide)]
  show (parseDelim '"' (body ++ '"' :: rest)).map pyStrip = some (pyStrip body)
  rw [parseDelim_of_shape '"' body rest hb hf]
  rfl

theorem matchChars_of_shape_angle (ws1 ws2 ws3 body rest : List Char)
    (h1 : SpaceAll ws1) (h2 : SpaceAll ws2) (h3 : SpaceAll ws3)
    (hb : body ≠ []) (hf : ∀ c ∈ body, c ≠ '>') :
    matchIncludeChars (ws1 ++ '#' :: (ws2 ++ ('i' :: 'n' :: 'c' :: 'l' :: 'u' :: 'd' :: 'e' ::
      (ws3 ++ '<' :: (body ++ '>' :: rest))))) = some (pyStrip body) := by
  unfold matchIncludeChars
  rw [afterHash_shape _ _ h1]
  simp only [Option.some_bind]
  rw [afterIncludeWord_shape _ _ h2]
  simp only [Option.some_bind]
  exact delimPart_angle ws3 body rest h3 hb hf

theorem matchChars_of_shape_quote (ws1 ws2 ws3 body rest : List Char)
    (h1 : SpaceAll ws1) (h2 : SpaceAll ws2) (h3 : SpaceAll ws3)
    (hb : body ≠ []) (hf : ∀ c ∈ body, c ≠ '"') :
    matchIncludeChars (ws1 ++ '#' :: (ws2 ++ ('i' :: 'n' :: 'c' :: 'l' :: 'u' :: 'd' :: 'e' ::
      (ws3 ++ '"' :: (body ++ '"' :: rest))))) = some (pyStrip body) := by
  unfold matchIncludeChars
  rw [afterHash_shape _ _ h1]
  simp only [Option.some_bind]
  rw [afterIncludeWord_shape _ _ h2]
  simp only [Option.some_bind]
  exact delimPart_quote ws3 body rest h3 hb hf

theorem afterHash_inv (cs cs1 : List Char) (h : afterHash cs = some cs1) :
    ∃ ws, SpaceAll ws ∧ cs = ws ++ '#' :: cs1 := by
  unfold afterHash at h
  split at h
  · rename_i rest heq
    injection h with h'
    subst h'
    refine ⟨cs.takeWhile isPySpace, fun c hc => mem_takeWhile_sat isPySpace cs c hc, ?_⟩
    conv_lhs => rw [← List.takeWhile_append_dropWhile isPySpace cs]
    rw [heq]
  · exact absurd h (by simp)

theorem afterIncludeWord_inv (cs cs2 : List Char) (h : afterIncludeWord cs = some cs2) :
    ∃ ws, SpaceAll ws ∧ cs = ws ++ 'i' :: 'n' :: 'c' :: 'l' :: 'u' :: 'd' :: 'e' :: cs2 := by
  unfold afterIncludeWord at h
  split at h
  · rename_i rest heq
    injection h with h'
    subst h'
    refine ⟨cs.takeWhile isPySpace, fun c hc => mem_takeWhile_sat isPySpace cs c hc, ?_⟩
    conv_lhs => rw [← List.takeWhile_append_dropWhile isPySpace cs]
    rw [heq]
  · exact absurd h (by simp)

theorem parseDelim_inv (close : Char) (cs3 f : List Char) (h : parseDelim close cs3 = some f) :
    f ≠ [] ∧ (∀ c ∈ f, c ≠ close) ∧ ∃ rest, cs3 = f ++ close :: rest := by
  unfold parseDelim at h
  split at h
  · exact absurd h (by simp)
  split at h
  · exact absurd h (by simp)
  rename_i hne hdw
  injection h with h'
  subst h'
  refine ⟨hne, fun c hc => ?_, ?_⟩
  · have := mem_takeWhile_sat _ cs3 c hc
    simpa using this
  · rcases hx : cs3.dropWhile (fun c => !(c == close)) with _ | ⟨x, xs⟩
    · exact absurd hx hdw
    · have hxf := dropWhile_head_false _ cs3 x xs hx
      have hxc : x = close := by simpa using hxf
      refine ⟨xs, ?_⟩
      conv_lhs => rw [← List.takeWhile_append_dropWhile (fun c => !(c == close)) cs3]
      rw [hx, hxc]

theorem delimPart_inv (cs2 f : List Char) (h : delimPart cs2 = some f) :
    ∃ op close body rest, ((op = '<' ∧ close = '>') ∨ (op = '"' ∧ close = '"')) ∧
      (∃ ws, SpaceAll ws ∧ cs2 = ws ++ op :: (body ++ close :: rest)) ∧
      body ≠ [] ∧ (∀ c ∈ body, c ≠ close) ∧ f = pyStrip body := by
  unfold delimPart at h
  split at h
  · rename_i cs3 heq
    rcases hp : parseDelim '>' cs3 with _ | body
    · rw [hp] at h; cases h
    · rw [hp] at h
      injection h with h'
      obtain ⟨hne, hfree, rest, hcs3⟩ := parseDelim_inv '>' cs3 body hp
      refine ⟨'<', '>', body, rest, Or.inl ⟨rfl, rfl⟩,
        ⟨cs2.takeWhile isPySpace, fun c hc => mem_takeWhile_sat isPySpace cs2 c hc, ?_⟩,
        hne, hfree, h'.symm⟩
      conv_lhs => rw [← List.takeWhile_append_dropWhile isPySpace cs2]
      rw [heq, hcs3]
  · rename_i cs3 heq
    rcases hp : parseDelim '"' cs3 with _ | body
    · rw [hp] at h; cases h
    · rw [hp] at h
      injection h with h'
      obtain ⟨hne, hfree, rest, hcs3⟩ := parseDelim_inv '"' cs3 body hp
      refine ⟨'"', '"', body, rest, Or.inr ⟨rfl, rfl⟩,
        ⟨cs2.takeWhile isPySpace, fun c hc => mem_takeWhile_sat isPySpace cs2 c hc, ?_⟩,
        hne, hfree, h'.symm⟩
      conv_lhs => rw [← List.takeWhile_append_dropWhile isPySpace cs2]
      rw [heq, hcs3]
  · cases h

theorem shape_of_matchChars (cs f : List Char) (h : matchIncludeChars cs = some f) :
    ∃ body, (IncludeShape '<' '>' cs body ∨ IncludeShape '"' '"' cs body) ∧ f = pyStrip body := by
  unfold matchIncludeChars at h
  rcases hah : afterHash cs with _ | cs1
  · rw [hah] at h; cases h
  rw [hah] at h
  simp only [Option.some_bind] at h
  rcases haw : afterIncludeWord cs1 with _ | cs2
  · rw [haw] at h; cases h
  rw [haw] at h
  simp only [Option.some_bind] at h
  obtain ⟨ws1, hws1, hcs⟩ := afterHash_inv cs cs1 hah
  obtain ⟨ws2, hws2, hcs1⟩ := afterIncludeWord_inv cs1 cs2 haw
  obtain ⟨op, close, body, rest, hoc, ⟨ws3, hws3, hcs2⟩, hne, hfree, hform⟩ :=
    delimPart_inv cs2 f h
  refine ⟨body, ?_, hform⟩
  rcases hoc with ⟨rfl, rfl⟩ | ⟨rfl, rfl⟩
  · exact Or.inl ⟨ws1, ws2, ws3, rest, hws1, hws2, hws3, hne, hfree,
      by rw [hcs, hcs1, hcs2]⟩
  · exact Or.inr ⟨ws1, ws2, ws3, rest, hws1, hws2, hws3, hne, hfree,
      by rw [hcs, hcs1, hcs2]⟩

/-- C6 (amended): the matcher returns a filename exactly for lines of the
shape optional whitespace, hash, optional whitespace, the literal
include, OPTIONAL whitespace, then a non-empty name in angle brackets or
double quotes, anchored at the start of the line with arbitrary trailing
text allowed; the returned filename is the delimited text stripped of
surrounding whitespace, and every line not of this shape yields no
match. -/
theorem C6_theorem (line f : String) :
    match_include line = some f ↔
      ∃ body, (IncludeShape '<' '>' line.toList body ∨ IncludeShape '"' '"' line.toList body) ∧
        f = String.mk (pyStrip body) := by
  constructor
  · intro h
    unfold match_include at h
    rcases hm : matchIncludeChars line.toList with _ | g
    · rw [hm] at h; cases h
    · rw [hm] at h
      injection h with h'
      obtain ⟨body, hsh, hg⟩ := shape_of_matchChars _ g hm
      exact ⟨body, hsh, by rw [← h', hg]⟩
  · rintro ⟨body, hsh | hsh, rfl⟩
    · obtain ⟨ws1, ws2, ws3, rest, h1, h2, h3, hb, hf, hcs⟩ := hsh
      unfold match_include
      rw [hcs, matchChars_of_shape_angle ws1 ws2 ws3 body rest h1 h2 h3 hb hf]
      rfl
    · obtain ⟨ws1, ws2, ws3, rest, h1, h2, h3, hb, hf, hcs⟩ := hsh
      unfold match_include
      rw [hcs, matchChars_of_shape_quote ws1 ws2 ws3 body rest h1 h2 h3 hb hf]
      rfl

/-- C6 counterexample: the line hash-include, with NO whitespace between
the literal include and the angle-bracketed name, is not of the claimed
shape (which demands whitespace there), yet match_include returns the
name: the claim's exactly-for-lines-of-this-shape characterization is
false on the code. -/
theorem C6_counterexample :
    match_include "#include<a.h>" = some "a.h" ∧
    ¬ ∃ body, (IncludeShapeRequiredWS '<' '>' "#include<a.h>".toList body ∨
               IncludeShapeRequiredWS '"' '"' "#include<a.h>".toList body) := by
  constructor
  · decide
  · rintro ⟨body, h⟩
    have hgen : ∀ (op close : Char),
        IncludeShapeRequiredWS op close ("#include<a.h>".toList) body → False := by
      intro op close hsh
      obtain ⟨ws1, ws2, ws3, rest, h1, h2, h3, hne3, hb, hf, hcs⟩ := hsh
      have hl : ("#include<a.h>".toList) =
          '#' :: 'i' :: 'n' :: 'c' :: 'l' :: 'u' :: 'd' :: 'e' ::
          '<' :: 'a' :: '.' :: 'h' :: '>' :: [] := rfl
      rw [hl] at hcs
      cases ws1 with
      | cons c t =>
        simp only [List.cons_append, List.cons.injEq] at hcs
        obtain ⟨hc, -⟩ := hcs
        exact absurd (hc ▸ h1 c (by simp)) (by decide)
      | nil =>
        simp only [List.nil_append, List.cons.injEq, true_and] at hcs
        cases ws2 with
        | cons c t =>
          simp only [List.cons_append, List.cons.injEq] at hcs
          obtain ⟨hc, -⟩ := hcs
          exact absurd (hc ▸ h2 c (by simp)) (by decide)
        | nil =>
          simp only [List.nil_append, List.cons.injEq, true_and] at hcs
          cases ws3 with
          | nil => exact hne3 rfl
          | cons c t =>
            simp only [List.cons_append, List.cons.injEq] at hcs
            obtain ⟨hc, -⟩ := hcs
            exact absurd (hc ▸ h3 c (by simp)) (by decide)
    rcases h with h | h
    · exact hgen _ _ h
    · exact hgen _ _ h

/-! ### Search-path order, per-line behaviour of the expansion loop -/

/-- Resolution over an appended search list tries the front part first
and falls back to the back part only when every front directory fails. -/
theorem find_path_append (name : String) (xs ys : List String) (fs : FS) :
    find_path name (xs ++ ys) fs =
      match find_path name xs fs with
      | some p => some p
      | none => find_path name ys fs := by
  induction xs with
  | nil => rfl
  | cons d rest ih =>
    by_cases hd : isfile fs (joinPath d name) = true
    · simp [find_path, hd]
    · simp [find_path, hd, ih]

/-- C1 (amended): expand resolves each include against the
caller-supplied directories followed by the directory containing the
current source file, appended LAST — so a file of the given name in a
caller-supplied search directory is resolved in preference to one in the
including file's own directory, and the source file's directory is
consulted only when every caller-supplied directory fails. -/
theorem C1_theorem (name rname : String) (includes : List String) (fs : FS) :
    find_path name (includes ++ [dirname rname]) fs =
      match find_path name includes fs with
      | some p => some p
      | none => find_path name [dirname rname] fs :=
  find_path_append name includes [dirname rname] fs

/-- C1 counterexample: a file h.h exists both in the caller-supplied
directory inc and in the directory dir of the including file; the claim
says dir/h.h must win, but the expansion resolves and depends on
inc/h.h. -/
theorem C1_counterexample :
    (expand 2 [("inc/h.h", ["H1\n"]), ("dir/h.h", ["H2\n"]), ("dir/a.h", ["#include \"h.h\"\n"])]
        "dir/a.h" ["#include \"h.h\"\n"] ["inc"] [] "#line \x7bline\x7d \x7bfile\x7d"
        "/" "/").map Prod.snd
      = some ["inc/h.h"] ∧
    isfile [("inc/h.h", ["H1\n"]), ("dir/h.h", ["H2\n"]), ("dir/a.h", ["#include \"h.h\"\n"])]
        "dir/h.h" = true ∧
    ("inc/h.h" : String) ≠ "dir/h.h" := by
  exact ⟨by decide, by decide, by decide⟩

/-- C2 (amended): for an include line whose resolved path is already in
the inclusion chain, expand does not pass the line through and does not
expand it, but it is not fully silent: the loop body still writes the
resynchronization line marker for the current line number before
continuing with the next line. -/
theorem C2_theorem
    (recur : String → List String → List String → Option (List String × List String))
    (fs : FS) (fullIncludes past : List String) (marker name : String)
    (out depends : List String) (n : Nat) (line path : String)
    (hfind : find_include line fullIncludes fs = some path) (hmem : path ∈ past) :
    expandStep recur fs fullIncludes past marker name (some (out, depends, n)) line
      = some (out ++ [formatMarker marker (n + 1) name], depends, n + 1) := by
  simp [expandStep, hfind, hmem]

theorem C2_witness :
    expandStep (fun _ _ _ => none) [("b.h", ["B\n"])] [""] ["b.h"]
      "#line \x7bline\x7d \x7bfile\x7d" "a.h" (some ([], [], 0)) "#include \"b.h\"\n"
      = some ([] ++ [formatMarker "#line \x7bline\x7d \x7bfile\x7d" (0 + 1) "a.h"], [], 0 + 1) :=
  C2_theorem (fun _ _ _ => none) [("b.h", ["B\n"])] [""] ["b.h"]
    "#line \x7bline\x7d \x7bfile\x7d" "a.h" [] [] 0 "#include \"b.h\"\n" "b.h"
    (by decide) (by decide)

/-- C2 counterexample: a concrete loop step on an include line whose
resolved path b.h is already in the inclusion chain writes a non-empty
chunk (the resynchronization marker) to the sink, so the line is not
dropped with no output at all. -/
theorem C2_counterexample :
    expandStep (fun _ _ _ => none) [("b.h", ["B\n"])] [""] ["b.h"]
      "#line \x7bline\x7d \x7bfile\x7d" "a.h" (some ([], [], 0)) "#include \"b.h\"\n"
      = some (["#line 1 a.h\n"], [], 1) ∧ (["#line 1 a.h\n"] : List String) ≠ [] := by
  exact ⟨by decide, by decide⟩

/-- C3 (amended): after a resolved include line is recursively expanded,
the loop body emits a line marker naming the outer file and carrying the
include line's OWN number (the current value of the line counter), not
the number of the line following the directive. -/
theorem C3_theorem
    (recur : String → List String → List String → Option (List String × List String))
    (fs : FS) (fullIncludes past : List String) (marker name : String)
    (out depends : List String) (n : Nat) (line path : String)
    (incLines : List String) (incOut incDeps : List String)
    (hfind : find_include line fullIncludes fs = some path) (hmem : path ∉ past)
    (hlook : lookupFile fs path = some incLines)
    (hrec : recur path incLines (past ++ [path]) = some (incOut, incDeps)) :
    expandStep recur fs fullIncludes past marker name (some (out, depends, n)) line
      = some (out ++ incOut ++ [formatMarker marker (n + 1) name],
          depends ++ path :: incDeps, n + 1) := by
  simp [expandStep, hfind, hmem, hlook, hrec]

theorem C3_witness :
    expandStep (fun _ _ _ => some (["INC\n"], [])) [("b.h", ["B\n"])] [""] []
      "#line \x7bline\x7d \x7bfile\x7d" "a.h" (some ([], [], 0)) "#include \"b.h\"\n"
      = some ([] ++ ["INC\n"] ++ [formatMarker "#line \x7bline\x7d \x7bfile\x7d" (0 + 1) "a.h"],
          [] ++ "b.h" :: [], 0 + 1) :=
  C3_theorem (fun _ _ _ => some (["INC\n"], [])) [("b.h", ["B\n"])] [""] []
    "#line \x7bline\x7d \x7bfile\x7d" "a.h" [] [] 0 "#include \"b.h\"\n" "b.h"
    ["B\n"] ["INC\n"] [] (by decide) (by decide) (by decide) rfl

/-- C3 counterexample: a.h includes b.h on line 1; after the nested
expansion of b.h the marker written is the one for line 1 (the include
line's own number), not line 2 as the claim requires. -/
theorem C3_counterexample :
    expand 2 [("a.h", ["#include \"b.h\"\n", "X\n"]), ("b.h", ["B\n"])] "a.h"
        ["#include \"b.h\"\n", "X\n"] [] [] "#line \x7bline\x7d \x7bfile\x7d" "/" "/"
      = some (["#line 1 a.h\n", "#line 1 b.h\n", "B\n", "#line 1 a.h\n", "X\n"], ["b.h"]) ∧
    ("#line 1 a.h\n" : String) ≠ "#line 2 a.h\n" := by
  exact ⟨by decide, by decide⟩

/-- C5: a line that matches the include pattern but whose extracted name
resolves in no directory of the effective search path is written to the
sink as one chunk, completely unchanged, and processing continues with
the next line. -/
theorem C5_theorem
    (recur : String → List String → List String → Option (List String × List String))
    (fs : FS) (fullIncludes past : List String) (marker name : String)
    (out depends : List String) (n : Nat) (line nm : String)
    (hmatch : match_include line = some nm)
    (hfp : find_path nm fullIncludes fs = none) :
    expandStep recur fs fullIncludes past marker name (some (out, depends, n)) line
      = some (out ++ [line], depends, n + 1) := by
  have hfind : find_include line fullIncludes fs = none := by
    unfold find_include
    rw [hmatch]
    by_cases hnm : nm = ""
    · simp [hnm]
    · simp [hnm, hfp]
  simp [expandStep, hfind]

theorem C5_witness :
    expandStep (fun _ _ _ => none) [] [""] [] "#line \x7bline\x7d \x7bfile\x7d" "a.h"
      (some ([], [], 0)) "#include <stdio.h>\n"
      = some ([] ++ ["#include <stdio.h>\n"], [], 0 + 1) :=
  C5_theorem (fun _ _ _ => none) [] [""] [] "#line \x7bline\x7d \x7bfile\x7d" "a.h"
    [] [] 0 "#include <stdio.h>\n" "stdio.h" (by decide) (by decide)

/-- C7: with an empty marker format string the code still writes output
at every marker point: the formatted marker is the bare newline appended
by expand, so the sink receives a blank line for the initial marker and
for every resynchronization marker, instead of nothing. -/
theorem C7_theorem :
    expand 1 [("a.h", ["x\n"])] "a.h" ["x\n"] [] [] "" "/" "/" = some (["\n", "x\n"], []) ∧
    (∀ (n : Nat) (file : String), formatMarker "" n file = "\n") := by
  exact ⟨by decide, fun n file => rfl⟩

/-- C9: when the include directive delimits a name consisting only of
whitespace the stripped filename is empty, find_include treats the line
as not an include (a falsy result), and the loop writes the line to the
sink unchanged instead of resolving it. -/
theorem C9_theorem (line : String) (hmatch : match_include line = some "") :
    (∀ (incs : List String) (fs : FS), find_include line incs fs = none) ∧
    (∀ (recur : String → List String → List String → Option (List String × List String))
      (fs : FS) (fullIncludes past : List String) (marker name : String)
      (out depends : List String) (n : Nat),
      expandStep recur fs fullIncludes past marker name (some (out, depends, n)) line
        = some (out ++ [line], depends, n + 1)) := by
  have hf : ∀ (incs : List String) (fs : FS), find_include line incs fs = none := by
    intro incs fs
    unfold find_include
    rw [hmatch]
    simp
  refine ⟨hf, fun recur fs fullIncludes past marker name out depends n => ?_⟩
  simp [expandStep, hf fullIncludes fs]

theorem C9_witness :
    find_include "#include <   >\n" [""] [] = none ∧
    expandStep (fun _ _ _ => none) [] [""] [] "#line \x7bline\x7d \x7bfile\x7d" "a.h"
      (some ([], [], 0)) "#include <   >\n"
      = some ([] ++ ["#include <   >\n"], [], 0 + 1) :=
  by
  have h := C9_theorem "#include <   >\n" (by decide)
  exact ⟨h.1 [""] [],
    h.2 (fun _ _ _ => none) [] [""] [] "#line \x7bline\x7d \x7bfile\x7d" "a.h" [] [] 0⟩

/-- C10: matching only requires the directive shape as a prefix of the
line: a well-formed include directive — angle-bracketed or quoted —
followed by arbitrary trailing characters still yields the delimited
name, and when the name resolves the loop replaces the whole line
(trailing characters included) with the nested expansion plus the
resynchronization marker — the line chunk itself is never written. -/
theorem C10_theorem (line : String) (ws1 ws2 ws3 body junk : List Char) (op close : Char)
    (recur : String → List String → List String → Option (List String × List String))
    (fs : FS) (fullIncludes past : List String) (marker name : String)
    (out depends : List String) (n : Nat) (path : String)
    (incLines : List String) (incOut incDeps : List String)
    (hoc : (op = '<' ∧ close = '>') ∨ (op = '"' ∧ close = '"'))
    (hcs : line.toList = ws1 ++ '#' :: (ws2 ++ ('i' :: 'n' :: 'c' :: 'l' :: 'u' :: 'd' :: 'e' ::
      (ws3 ++ op :: (body ++ close :: junk)))))
    (h1 : SpaceAll ws1) (h2 : SpaceAll ws2) (h3 : SpaceAll ws3)
    (hb : body ≠ []) (hf : ∀ c ∈ body, c ≠ close)
    (hfind : find_include line fullIncludes fs = some path) (hmem : path ∉ past)
    (hlook : lookupFile fs path = some incLines)
    (hrec : recur path incLines (past ++ [path]) = some (incOut, incDeps)) :
    match_include line = some (String.mk (pyStrip body)) ∧
    expandStep recur fs fullIncludes past marker name (some (out, depends, n)) line
      = some (out ++ incOut ++ [formatMarker marker (n + 1) name],
          depends ++ path :: incDeps, n + 1) := by
  constructor
  · unfold match_include
    rcases hoc with ⟨rfl, rfl⟩ | ⟨rfl, rfl⟩
    · rw [hcs, matchChars_of_shape_angle ws1 ws2 ws3 body junk h1 h2 h3 hb hf]
      rfl
    · rw [hcs, matchChars_of_shape_quote ws1 ws2 ws3 body junk h1 h2 h3 hb hf]
      rfl
  · simp [expandStep, hfind, hmem, hlook, hrec]

theorem C10_witness :
    match_include "#include \"b.h\" junk\n" = some (String.mk (pyStrip ['b', '.', 'h'])) ∧
    expandStep (fun _ _ _ => some (["INC\n"], [])) [("b.h", ["B\n"])] [""] []
      "#line \x7bline\x7d \x7bfile\x7d" "a.h" (some ([], [], 0)) "#include \"b.h\" junk\n"
      = some ([] ++ ["INC\n"] ++ [formatMarker "#line \x7bline\x7d \x7bfile\x7d" (0 + 1) "a.h"],
          [] ++ "b.h" :: [], 0 + 1) :=
  C10_theorem "#include \"b.h\" junk\n" [] [] [' '] ['b', '.', 'h'] (" junk\n".toList) '"' '"'
    (fun _ _ _ => some (["INC\n"], [])) [("b.h", ["B\n"])] [""] []
    "#line \x7bline\x7d \x7bfile\x7d" "a.h" [] [] 0 "b.h" ["B\n"] ["INC\n"] []
    (Or.inr ⟨rfl, rfl⟩) (by decide) (by decide) (by decide) (by decide) (by decide)
    (by decide) (by decide) (by decide) (by decide) rfl

/-! ### Termination: the chain grows by one known file per recursion -/

theorem find_path_isfile (name : String) :
    ∀ (incs : List String) (fs : FS) (p : String),
      find_path name incs fs = some p → isfile fs p = true := by
  intro incs
  induction incs with
  | nil => intro fs p h; cases h
  | cons d rest ih =>
    intro fs p h
    unfold find_path at h
    split at h
    · rename_i hd
      injection h with h'
      subst h'
      exact hd
    · exact ih fs p h

theorem find_include_isfile (line : String) (incs : List String) (fs : FS) (p : String)
    (h : find_include line incs fs = some p) : isfile fs p = true := by
  unfold find_include at h
  split at h
  · cases h
  · rename_i name heq
    by_cases hn : name = ""
    · rw [if_pos hn] at h; cases h
    · rw [if_neg hn] at h
      exact find_path_isfile name incs fs p h

theorem isfile_mem_keys (fs : FS) (p : String) (h : isfile fs p = true) :
    p ∈ fs.map Prod.fst := by
  induction fs with
  | nil => simp [isfile, lookupFile] at h
  | cons entry rest ih =>
    obtain ⟨q, ls⟩ := entry
    simp only [isfile, lookupFile] at h
    by_cases hq : q = p
    · subst hq
      simp
    · rw [if_neg hq] at h
      have h' : isfile rest p = true := h
      simp only [List.map_cons]
      exact List.mem_cons_of_mem q (ih h')

theorem filter_length_mono {α : Type} (P Q : α → Bool) (himp : ∀ x, Q x = true → P x = true) :
    ∀ (l : List α), (l.filter Q).length ≤ (l.filter P).length := by
  intro l
  induction l with
  | nil => simp
  | cons c t ih =>
    cases hq : Q c with
    | true =>
      have hp := himp c hq
      simp only [List.filter_cons, hq, hp, if_true, List.length_cons]
      omega
    | false =>
      cases hp : P c with
      | true =>
        simp only [List.filter_cons, hq, hp, if_true, Bool.false_eq_true, if_false,
          List.length_cons]
        omega
      | false =>
        simp only [List.filter_cons, hq, hp, Bool.false_eq_true, if_false]
        exact ih

theorem filter_length_lt (past : List String) (path : String) (hnp : path ∉ past) :
    ∀ (keys : List String), path ∈ keys →
      ((keys.filter (fun q => decide (¬ q ∈ past ++ [path]))).length <
        (keys.filter (fun q => decide (¬ q ∈ past))).length) := by
  have himp : ∀ x, (decide (¬ x ∈ past ++ [path])) = true → (decide (¬ x ∈ past)) = true := by
    intro x hx
    simp only [decide_eq_true_eq] at hx ⊢
    intro hxp
    exact hx (List.mem_append_left _ hxp)
  intro keys
  induction keys with
  | nil => intro h; cases h
  | cons k ks ih =>
    intro hmem
    by_cases hk : k = path
    · subst hk
      have hQ : (decide (¬ k ∈ past ++ [k])) = false := by simp
      have hP : (decide (¬ k ∈ past)) = true := by simp [hnp]
      simp only [List.filter_cons, hQ, hP, if_true, Bool.false_eq_true, if_false,
        List.length_cons]
      have := filter_length_mono _ _ himp ks
      omega
    · have hmem' : path ∈ ks := by
        rcases List.mem_cons.mp hmem with h | h
        · exact absurd h.symm hk
        · exact h
      by_cases hkp : k ∈ past
      · have hQ : (decide (¬ k ∈ past ++ [path])) = false := by
          simp [List.mem_append_left _ hkp]
        have hP : (decide (¬ k ∈ past)) = false := by simp [hkp]
        simp only [List.filter_cons, hQ, hP, Bool.false_eq_true, if_false]
        exact ih hmem'
      · have hQ : (decide (¬ k ∈ past ++ [path])) = true := by
          simp [hkp, hk]
        have hP : (decide (¬ k ∈ past)) = true := by simp [hkp]
        simp only [List.filter_cons, hQ, hP, if_true, List.length_cons]
        have := ih hmem'
        omega

theorem newFiles_append_lt (fs : FS) (past : List String) (path : String)
    (hfile : isfile fs path = true) (hnp : path ∉ past) :
    newFiles fs (past ++ [path]) < newFiles fs past := by
  unfold newFiles
  exact filter_length_lt past path hnp (fs.map Prod.fst) (isfile_mem_keys fs path hfile)

theorem foldl_expandStep_none
    (recur : String → List String → List String → Option (List String × List String))
    (fs : FS) (fullIncludes past : List String) (marker name : String) :
    ∀ (lines : List String),
      lines.foldl (expandStep recur fs fullIncludes past marker name) none = none := by
  intro lines
  induction lines with
  | nil => rfl
  | cons l t ih =>
    rw [List.foldl_cons]
    exact ih

theorem foldl_expandStep_isSome
    (recur : String → List String → List String → Option (List String × List String))
    (fs : FS) (fullIncludes past : List String) (marker name : String)
    (hrec : ∀ (p : String) (ls : List String), isfile fs p = true → p ∉ past →
      (recur p ls (past ++ [p])).isSome = true) :
    ∀ (lines : List String) (out depends : List String) (n : Nat),
      (lines.foldl (expandStep recur fs fullIncludes past marker name)
        (some (out, depends, n))).isSome = true := by
  intro lines
  induction lines with
  | nil => intro out depends n; rfl
  | cons line t ih =>
    intro out depends n
    rw [List.foldl_cons]
    rcases hfi : find_include line fullIncludes fs with _ | path
    · have hstep : expandStep recur fs fullIncludes past marker name
          (some (out, depends, n)) line = some (out ++ [line], depends, n + 1) := by
        simp [expandStep, hfi]
      rw [hstep]
      exact ih _ _ _
    · by_cases hmem : path ∈ past
      · have hstep : expandStep recur fs fullIncludes past marker name
            (some (out, depends, n)) line
            = some (out ++ [formatMarker marker (n + 1) name], depends, n + 1) := by
          simp [expandStep, hfi, hmem]
        rw [hstep]
        exact ih _ _ _
      · have hfile := find_include_isfile line fullIncludes fs path hfi
        rcases hlk : lookupFile fs path with _ | incLines
        · simp [isfile, hlk] at hfile
        · have hr := hrec path incLines hfile hmem
          rcases ho : recur path incLines (past ++ [path]) with _ | res
          · rw [ho] at hr
            simp at hr
          · obtain ⟨incOut, incDeps⟩ := res
            have hstep : expandStep recur fs fullIncludes past marker name
                (some (out, depends, n)) line
                = some (out ++ incOut ++ [formatMarker marker (n + 1) name],
                    depends ++ path :: incDeps, n + 1) := by
              simp [expandStep, hfi, hmem, hlk, ho]
            rw [hstep]
            exact ih _ _ _

/-- C4: for every finite file system, expansion terminates even when the
include relation is cyclic: a resolved path already in the inclusion
chain is never expanded again, each recursive call adds one not-yet-seen
file of the file system to the chain, so fuel exceeding the number of
files not yet in the chain suffices and every call to expand returns. -/
theorem C4_theorem (fuel : Nat) (fs : FS) (rname : String) (rlines : List String)
    (includes past : List String) (marker relPath cwd : String)
    (h : newFiles fs past < fuel) :
    (expand fuel fs rname rlines includes past marker relPath cwd).isSome = true := by
  induction fuel generalizing fs rname rlines includes past marker relPath cwd with
  | zero => omega
  | succ fuel ih =>
    have hrec : ∀ (p : String) (ls : List String), isfile fs p = true → p ∉ past →
        (expand fuel fs p ls includes (past ++ [p]) marker relPath cwd).isSome = true := by
      intro p ls hf hnp
      apply ih
      have h1 := newFiles_append_lt fs past p hf hnp
      omega
    have hfold := foldl_expandStep_isSome
      (fun p ls pst => expand fuel fs p ls includes pst marker relPath cwd)
      fs (includes ++ [dirname rname]) past marker (relpath cwd rname relPath)
      (fun p ls hf hnp => hrec p ls hf hnp)
      rlines [formatMarker marker 1 (relpath cwd rname relPath)] [] 0
    simp only [expand]
    rcases hres : List.foldl
        (expandStep (fun p ls pst => expand fuel fs p ls includes pst marker relPath cwd) fs
          (includes ++ [dirname rname]) past marker (relpath cwd rname relPath))
        (some ([formatMarker marker 1 (relpath cwd rname relPath)], [], 0)) rlines
        with _ | res
    · rw [hres] at hfold
      simp at hfold
    · rfl

theorem C4_witness :
    newFiles [] [] < 1 ∧
    (expand 1 [] "a.h" ["x\n"] [] [] "" "/" "/").isSome = true :=
  ⟨by decide, C4_theorem 1 [] "a.h" ["x\n"] [] [] "" "/" "/" (by decide)⟩

/-! ### The dependency list refines the pure spec-side traversal -/

theorem foldl_specStep_none
    (srecur : String → List String → List String → Option (List String))
    (fs : FS) (fullIncludes past : List String) :
    ∀ (lines : List String),
      lines.foldl (specStep srecur fs fullIncludes past) none = none := by
  intro lines
  induction lines with
  | nil => rfl
  | cons l t ih =>
    rw [List.foldl_cons]
    exact ih

theorem foldl_deps_eq
    (recur : String → List String → List String → Option (List String × List String))
    (srecur : String → List String → List String → Option (List String))
    (fs : FS) (fullIncludes past : List String) (marker name : String)
    (hrel : ∀ p ls pst, (recur p ls pst).map Prod.snd = srecur p ls pst) :
    ∀ (lines : List String) (out depends : List String) (n : Nat),
      (lines.foldl (expandStep recur fs fullIncludes past marker name)
        (some (out, depends, n))).map (fun t => t.2.1)
      = lines.foldl (specStep srecur fs fullIncludes past) (some depends) := by
  intro lines
  induction lines with
  | nil => intro out depends n; rfl
  | cons line t ih =>
    intro out depends n
    rw [List.foldl_cons, List.foldl_cons]
    rcases hfi : find_include line fullIncludes fs with _ | path
    · have h1 : expandStep recur fs fullIncludes past marker name
          (some (out, depends, n)) line = some (out ++ [line], depends, n + 1) := by
        simp [expandStep, hfi]
      have h2 : specStep srecur fs fullIncludes past (some depends) line = some depends := by
        simp [specStep, hfi]
      rw [h1, h2]
      exact ih _ _ _
    · by_cases hmem : path ∈ past
      · have h1 : expandStep recur fs fullIncludes past marker name
            (some (out, depends, n)) line
            = some (out ++ [formatMarker marker (n + 1) name], depends, n + 1) := by
          simp [expandStep, hfi, hmem]
        have h2 : specStep srecur fs fullIncludes past (some depends) line = some depends := by
          simp [specStep, hfi, hmem]
        rw [h1, h2]
        exact ih _ _ _
      · rcases hlk : lookupFile fs path with _ | incLines
        · have h1 : expandStep recur fs fullIncludes past marker name
              (some (out, depends, n)) line = none := by
            simp [expandStep, hfi, hmem, hlk]
          have h2 : specStep srecur fs fullIncludes past (some depends) line = none := by
            simp [specStep, hfi, hmem, hlk]
          rw [h1, h2, foldl_expandStep_none, foldl_specStep_none]
          rfl
        · rcases ho : recur path incLines (past ++ [path]) with _ | res
          · have hs : srecur path incLines (past ++ [path]) = none := by
              rw [← hrel, ho]
              rfl
            have h1 : expandStep recur fs fullIncludes past marker name
                (some (out, depends, n)) line = none := by
              simp [expandStep, hfi, hmem, hlk, ho]
            have h2 : specStep srecur fs fullIncludes past (some depends) line = none := by
              simp [specStep, hfi, hmem, hlk, hs]
            rw [h1, h2, foldl_expandStep_none, foldl_specStep_none]
            rfl
          · obtain ⟨incOut, incDeps⟩ := res
            have hs : srecur path incLines (past ++ [path]) = some incDeps := by
              rw [← hrel, ho]
              rfl
            have h1 : expandStep recur fs fullIncludes past marker name
                (some (out, depends, n)) line
                = some (out ++ incOut ++ [formatMarker marker (n + 1) name],
                    depends ++ path :: incDeps, n + 1) := by
              simp [expandStep, hfi, hmem, hlk, ho]
            have h2 : specStep srecur fs fullIncludes past (some depends) line
                = some (depends ++ path :: incDeps) := by
              simp [specStep, hfi, hmem, hlk, hs]
            rw [h1, h2]
            exact ih _ _ _

/-- C8: the dependency list returned by expand is exactly the pure
depth-first pre-order dependency traversal specDeps (own directly
resolved include paths interleaved with the lists of the recursive
calls, in first-encountered order, duplicates permitted); and for a
header that includes b.h exactly once, the returned list contains b.h's
resolved path exactly once. -/
theorem C8_theorem :
    (∀ (fuel : Nat) (fs : FS) (rname : String) (rlines : List String)
      (includes past : List String) (marker relPath cwd : String),
      (expand fuel fs rname rlines includes past marker relPath cwd).map Prod.snd
        = specDeps fuel fs rname rlines includes past) ∧
    (expand 2 [("a.h", ["#include \"b.h\"\n", "X\n"]), ("b.h", ["B\n"])] "a.h"
        ["#include \"b.h\"\n", "X\n"] [] [] "#line \x7bline\x7d \x7bfile\x7d" "/" "/").map
        Prod.snd
      = some ["b.h"] := by
  constructor
  · intro fuel
    induction fuel with
    | zero =>
      intro fs rname rlines includes past marker relPath cwd
      rfl
    | succ fuel ih =>
      intro fs rname rlines includes past marker relPath cwd
      have hrel : ∀ p ls pst,
          ((fun p ls pst => expand fuel fs p ls includes pst marker relPath cwd) p ls pst).map
            Prod.snd
          = (fun p ls pst => specDeps fuel fs p ls includes pst) p ls pst :=
        fun p ls pst => ih fs p ls includes pst marker relPath cwd
      have hf := foldl_deps_eq
        (fun p ls pst => expand fuel fs p ls includes pst marker relPath cwd)
        (fun p ls pst => specDeps fuel fs p ls includes pst)
        fs (includes ++ [dirname rname]) past marker (relpath cwd rname relPath) hrel
        rlines [formatMarker marker 1 (relpath cwd rname relPath)] [] 0
      simp only [expand, specDeps, Option.map_map]
      exact hf
  · decide

example : match_include "#include <stdio.h>" = some "stdio.h" := by decide
example : match_include " # include \"a.h\" junk" = some "a.h" := by decide
example : match_include "#include<a.h>" = some "a.h" := by decide
example : match_include "#include <   >" = some "" := by decide
example : match_include "#include <a" = none := by decide
example : match_include "int x;" = none := by decide
example : dirname "dir/a.h" = "dir" := by decide
example : dirname "a.h" = "" := by decide
example : joinPath "" "b.h" = "b.h" := by decide
example : joinPath "inc" "b.h" = "inc/b.h" := by decide
example : relpath "/" "a.h" "/" = "a.h" := by decide
example : relpath "/x" "a/b.h" "/" = "x/a/b.h" := by decide
example : formatMarker "#line \x7bline\x7d \x7bfile\x7d" 1 "a.h" = "#line 1 a.h\n" := by decide
example :
    expand 2 [("a.h", ["#include \"b.h\"\n", "X\n"]), ("b.h", ["B\n"])] "a.h"
      ["#include \"b.h\"\n", "X\n"] [] [] "#line \x7bline\x7d \x7bfile\x7d" "/" "/"
    = some (["#line 1 a.h\n", "#line 1 b.h\n", "B\n", "#line 1 a.h\n", "X\n"], ["b.h"]) := by
  decide
